import Mathlib

/-!
# SimpleVector: a verification development for `simple_vector.h`

The container of `src/simple-vector/simple_vector.h` is embedded as a record of its three
private members (`items_`, `size_`, `capacity_`) and every member function is a Lean
function on that record.

Conventions of the embedding

* A buffer is the list of its slots.  A slot is `some x` when it holds the value `x` and
  `none` when it has never been written (storage fresh from the allocator).
* Pointers into the buffer (`Iterator`, `ConstIterator`) are slot offsets from `begin()`.
* An access outside the allocated slots is undefined behaviour in C++; the embedding makes
  it the explicit result `Fault.outOfBounds`.  A failed `assert` is `Fault.assertFailed`
  and the exception thrown by `At` is `Fault.outOfRange`.
* `size_t` counts are natural numbers: every count that is computed is bounded by the
  number of slots of a buffer that was allocated, so no `size_t` operation wraps.
  Allocation itself is taken to succeed.
* `Type{}` is `default` of an `Inhabited` element type.
* Moving an element is modelled as copying it (exact for `int` and the other value types
  the claims are stated for); the moved-from slot keeps its value.
-/

namespace SimpleVec

/-- The ways a call can end without returning normally. -/
inductive Fault where
  /-- The exception `std::out_of_range`, thrown by `At`. -/
  | outOfRange
  /-- An `assert` of the source does not hold. -/
  | assertFailed
  /-- A read or write outside the slots of a buffer (undefined behaviour). -/
  | outOfBounds
  deriving DecidableEq

/-- One slot of raw storage: `none` until it is first written. -/
abbrev Slot (α : Type) := Option α

/-- Modelled from the spec: `ArrayPtr<Type>` of `array_ptr.h`, which is not part of the
sources.  The spec describes it as an exclusively owned block of `capacity` slots of
uninitialised storage with unchecked indexed access and an O(1) `swap`; it is the list of
its slots. -/
abbrev ArrayPtr (α : Type) := List (Slot α)

/-- Modelled from the spec: the constructor `ArrayPtr<Type>(size)`, storage for exactly
`size` elements, none of them initialised (no slots at all for `size == 0`). -/
def ArrayPtr.alloc {α : Type} (size : Nat) : ArrayPtr α :=
  List.replicate size none

/-- Unchecked indexed read `buf[i]`; outside the buffer it is undefined behaviour. -/
def readAt {α : Type} (buf : ArrayPtr α) (i : Nat) : Except Fault (Slot α) :=
  match buf[i]? with
  | some x => .ok x
  | none => .error .outOfBounds

/-- Unchecked indexed write `buf[i] = x`; outside the buffer it is undefined behaviour. -/
def writeAt {α : Type} (buf : ArrayPtr α) (i : Nat) (x : Slot α) : Except Fault (ArrayPtr α) :=
  if i < buf.length then .ok (buf.set i x) else .error .outOfBounds

/-- The loop of `std::copy(first, last, d_first)` (also with move iterators, and of
`std::move(first, last, d_first)`) from one buffer into another: `n = last - first`
elements are read from `src` at `first, first+1, ...` and written to `dst` at
`d, d+1, ...`, in that order. -/
def copyRange {α : Type} (src : ArrayPtr α) :
    Nat → Nat → ArrayPtr α → Nat → Except Fault (ArrayPtr α)
  | _, 0, dst, _ => .ok dst
  | first, n + 1, dst, d => do
      let x ← readAt src first
      let dst ← writeAt dst d x
      copyRange src (first + 1) n dst (d + 1)

/-- The loop of `std::move(first, last, d_first)` when source and destination lie in the
same buffer (as in `Erase`): each element is read from the buffer as it is after the
previous assignments. -/
def moveWithin {α : Type} : ArrayPtr α → Nat → Nat → Nat → Except Fault (ArrayPtr α)
  | buf, _, 0, _ => .ok buf
  | buf, first, n + 1, d => do
      let x ← readAt buf first
      let buf ← writeAt buf d x
      moveWithin buf (first + 1) n (d + 1)

/-- The loop of `std::fill(first, first + n, value)` and of `std::copy` from an
initializer list: the values `xs` are written to `dst` at `d, d+1, ...`. -/
def writeRange {α : Type} : List α → ArrayPtr α → Nat → Except Fault (ArrayPtr α)
  | [], dst, _ => .ok dst
  | x :: xs, dst, d => do
      let dst ← writeAt dst d (some x)
      writeRange xs dst (d + 1)

/-- The private members of `SimpleVector<Type>`. -/
structure SimpleVector (α : Type) where
  items_ : ArrayPtr α
  size_ : Nat
  capacity_ : Nat
  deriving DecidableEq

/-- The block of storage a returned pointer points into. -/
inductive Storage where
  /-- The buffer that `items_` owns when the call returns. -/
  | current
  /-- The buffer that `items_` owned when the call began and that the call swapped into
  its local `newArray`, which is destroyed on return. -/
  | released
  deriving DecidableEq

/-- A returned `Iterator` (`Type*`): the storage it points into and the slot offset. -/
structure Iterator where
  storage : Storage
  offset : Nat
  deriving DecidableEq

variable {α : Type}

/-- The default constructor `SimpleVector() noexcept = default`: no storage, `size_ = 0`,
`capacity_ = 0`. -/
def SimpleVector.empty : SimpleVector α :=
  { items_ := ArrayPtr.alloc 0, size_ := 0, capacity_ := 0 }

/-- The accessor `GetSize()`. -/
def GetSize (v : SimpleVector α) : Nat := v.size_

/-- The accessor `GetCapacity()`. -/
def GetCapacity (v : SimpleVector α) : Nat := v.capacity_

/-- The accessor `IsEmpty()`: `!size_`. -/
def IsEmpty (v : SimpleVector α) : Bool := v.size_ == 0

/-- The iterator `begin()`: `items_.Get()`. -/
def SimpleVector.begin (_v : SimpleVector α) : Iterator := ⟨.current, 0⟩

/-- The iterator `end()`: `items_.Get() + size_`. -/
def SimpleVector.end_ (v : SimpleVector α) : Iterator := ⟨.current, v.size_⟩

/-- The live elements: the slots `[0, size_)` of the buffer, in index order. -/
def live (v : SimpleVector α) : List (Slot α) := v.items_.take v.size_

/-- The member `swap(other)`: exchanges the three members; returns `(this, other)` after the call. -/
def swap (v other : SimpleVector α) : SimpleVector α × SimpleVector α :=
  ({ items_ := other.items_, size_ := other.size_, capacity_ := other.capacity_ },
   { items_ := v.items_, size_ := v.size_, capacity_ := v.capacity_ })

/-- The constructor `SimpleVector(size_t size, const Type& value)`: a fresh buffer of `size`
slots, filled with `value` by `std::fill`. -/
def SimpleVector.filled (size : Nat) (value : α) : Except Fault (SimpleVector α) := do
  let newArray : ArrayPtr α := ArrayPtr.alloc size
  let newArray ← writeRange (List.replicate size value) newArray 0
  pure { items_ := newArray, size_ := size, capacity_ := size }

/-- The constructor `explicit SimpleVector(size_t size)`: builds `tmp(size, Type{})` and swaps with it. -/
def SimpleVector.ofSize [Inhabited α] (size : Nat) : Except Fault (SimpleVector α) := do
  let this : SimpleVector α := { items_ := ArrayPtr.alloc 0, size_ := size, capacity_ := size }
  let tmp ← SimpleVector.filled size (default : α)
  pure (swap this tmp).1

/-- The constructor `SimpleVector(std::initializer_list<Type> init)`. -/
def SimpleVector.ofList (init : List α) : Except Fault (SimpleVector α) := do
  let size := init.length
  let newArray : ArrayPtr α := ArrayPtr.alloc size
  let newArray ← writeRange init newArray 0
  pure { items_ := newArray, size_ := size, capacity_ := size }

/-- The member `Reserve(newcapacity_)`. -/
def Reserve [Inhabited α] (v : SimpleVector α) (newcapacity : Nat) :
    Except Fault (SimpleVector α) :=
  if newcapacity > v.capacity_ then do
    let t : α := default
    let tmp ← SimpleVector.filled newcapacity t
    let tmpItems ← copyRange v.items_ 0 v.size_ tmp.items_ 0
    pure { items_ := tmpItems, size_ := v.size_, capacity_ := tmp.capacity_ }
  else
    pure v

/-- The constructor `explicit SimpleVector(ReserveProxyObj proxysize_)`:
`Reserve(proxysize_.GetSize())`
on the default-initialised members. -/
def SimpleVector.reserved [Inhabited α] (capacityToReserve : Nat) :
    Except Fault (SimpleVector α) :=
  Reserve SimpleVector.empty capacityToReserve

/-- The member `PushBack(Type&& item)`. -/
def PushBack (v : SimpleVector α) (item : α) : Except Fault (SimpleVector α) :=
  if v.size_ < v.capacity_ then do
    let items ← writeAt v.items_ v.size_ (some item)
    pure { items_ := items, size_ := v.size_ + 1, capacity_ := v.capacity_ }
  else do
    let capacity := if v.capacity_ = 0 then v.capacity_ + 1 else v.capacity_
    let newArray : ArrayPtr α := ArrayPtr.alloc (capacity * 2)
    let newArray ← copyRange v.items_ 0 v.size_ newArray 0
    let newArray ← writeAt newArray v.size_ (some item)
    pure { items_ := newArray, size_ := v.size_ + 1, capacity_ := capacity * 2 }

/-- The member `PushBack(const Type& item)`: copies `item` into `tmp` and calls `PushBack(Type&&)`. -/
def PushBackCopy (v : SimpleVector α) (item : α) : Except Fault (SimpleVector α) :=
  let tmp := item
  PushBack v tmp

/-- The member `Insert(ConstIterator pos, Type&& value)`; `pos` is the offset of the argument
from `begin()`.  Returns the vector after the call and the returned iterator: `end() - 1`
of the vector after `PushBack` on the first path, and on the second path `Iterator(pos)`,
the argument itself, a pointer into the buffer that `items_.swap(newArray)` has handed to
the local `newArray`. -/
def Insert (v : SimpleVector α) (pos : Nat) (value : α) :
    Except Fault (SimpleVector α × Iterator) :=
  if ¬ pos ≤ v.size_ then .error .assertFailed
  else if pos = v.size_ then do
    let v ← PushBack v value
    pure (v, ⟨.current, v.size_ - 1⟩)
  else do
    let t := pos
    let newArray : ArrayPtr α := ArrayPtr.alloc v.capacity_
    let ptr ← copyRange v.items_ 0 pos newArray 0
    let ptr ← writeAt ptr t (some value)
    let ptr ← copyRange v.items_ pos (v.size_ - pos) ptr (t + 1)
    pure ({ items_ := ptr, size_ := v.size_ + 1, capacity_ := v.capacity_ }, ⟨.released, pos⟩)

/-- The member `PopBack()`. -/
def PopBack (v : SimpleVector α) : SimpleVector α :=
  if ¬ IsEmpty v then { v with size_ := v.size_ - 1 } else v

/-- The member `Erase(ConstIterator pos)`; `pos` is the offset of the argument from `begin()`. -/
def Erase (v : SimpleVector α) (pos : Nat) : Except Fault (SimpleVector α × Iterator) :=
  if ¬ pos < v.size_ then .error .assertFailed
  else do
    let items ← moveWithin v.items_ (pos + 1) (v.size_ - (pos + 1)) pos
    pure ({ items_ := items, size_ := v.size_ - 1, capacity_ := v.capacity_ }, ⟨.current, pos⟩)

/-- The member `At(size_t index)`: the result of the call and the vector after it. -/
def At (v : SimpleVector α) (index : Nat) : Except Fault (Slot α) × SimpleVector α :=
  if index ≥ v.size_ then (.error .outOfRange, v)
  else (readAt v.items_ index, v)

/-- The member `Clear()`. -/
def Clear (v : SimpleVector α) : SimpleVector α :=
  { v with size_ := 0 }

/-- The loop of the second branch of `Resize`,
`while (it < it + (newsize_ - size_)) { *it++ = std::move(Type{}); }`,
with `delta = newsize_ - size_` and `it` the offset of the pointer.  The body is the
unchecked write `*it = Type{}` (a fault outside the buffer) followed by `it++`. -/
def resizeInPlaceLoop [Inhabited α] (delta : Nat) (buf : ArrayPtr α) (it : Nat) :
    Except Fault (ArrayPtr α) :=
  if it < it + delta then
    if it < buf.length then
      resizeInPlaceLoop delta (buf.set it (some default)) (it + 1)
    else .error .outOfBounds
  else .ok buf
termination_by buf.length - it
decreasing_by simp only [List.length_set]; omega

/-- The loop of the third branch of `Resize`,
`while (it < newArray.Get() + newsize_) { *it++ = std::move(Type{}); }`. -/
def resizeFillLoop [Inhabited α] (stop : Nat) (buf : ArrayPtr α) (it : Nat) :
    Except Fault (ArrayPtr α) :=
  if it < stop then
    match writeAt buf it (some default) with
    | .ok buf => resizeFillLoop stop buf (it + 1)
    | .error e => .error e
  else .ok buf
termination_by stop - it

/-- The member `Resize(newsize_)`. -/
def Resize [Inhabited α] (v : SimpleVector α) (newsize : Nat) : Except Fault (SimpleVector α) :=
  if v.size_ ≥ newsize then
    pure { v with size_ := newsize }
  else if v.capacity_ ≥ newsize then do
    let items ← resizeInPlaceLoop (newsize - v.size_) v.items_ v.size_
    pure { items_ := items, size_ := newsize, capacity_ := v.capacity_ }
  else do
    let newArray : ArrayPtr α := ArrayPtr.alloc newsize
    let newArray ← copyRange v.items_ 0 v.size_ newArray 0
    let newArray ← resizeFillLoop newsize newArray v.size_
    pure { items_ := newArray, size_ := newsize, capacity_ := newsize }

/-- The class invariant: `capacity_` is the number of slots of the owned buffer and
`size_ ≤ capacity_`. -/
def Inv (v : SimpleVector α) : Prop :=
  v.capacity_ = v.items_.length ∧ v.size_ ≤ v.capacity_

instance (v : SimpleVector α) : Decidable (Inv v) := by
  unfold Inv; infer_instance

/-- A sequence of `PushBack(Type&&)` calls, in list order. -/
def pushAll (v : SimpleVector α) : List α → Except Fault (SimpleVector α)
  | [] => .ok v
  | x :: xs => do
      let v ← PushBack v x
      pushAll v xs

/-- A sequence of `PushBack(const Type&)` calls, in list order. -/
def pushAllCopy (v : SimpleVector α) : List α → Except Fault (SimpleVector α)
  | [] => .ok v
  | x :: xs => do
      let v ← PushBackCopy v x
      pushAllCopy v xs

/-- The copy constructor `SimpleVector(const SimpleVector& other)`: builds
`tmp(other.GetSize())`, copies `[other.begin(), other.end())` to `tmp.begin()` and swaps the
default-initialised members of the new object with `tmp`.  Returns the new object and
`other` after the call (`other` is only read). -/
def copyConstruct [Inhabited α] (other : SimpleVector α) :
    Except Fault (SimpleVector α × SimpleVector α) := do
  let this : SimpleVector α := SimpleVector.empty
  let tmp ← SimpleVector.ofSize (GetSize other)
  let tmpItems ← copyRange other.items_ 0 other.size_ tmp.items_ 0
  let tmp : SimpleVector α := { items_ := tmpItems, size_ := tmp.size_, capacity_ := tmp.capacity_ }
  pure ((swap this tmp).1, other)

/-- The move constructor `SimpleVector(SimpleVector&& other) noexcept`: swaps the
default-initialised members of the new object with `other`.  Returns the new object and
`other` after the call. -/
def moveConstruct (other : SimpleVector α) : SimpleVector α × SimpleVector α :=
  swap SimpleVector.empty other

/-- The copy assignment `operator=(const SimpleVector& rhs)`.  The flag `sameObject` is the
outcome of the address test `&rhs == this`; when it holds, `rhs` is `this` itself.
Returns `*this` and `rhs` after the call. -/
def copyAssign [Inhabited α] (this rhs : SimpleVector α) (sameObject : Bool) :
    Except Fault (SimpleVector α × SimpleVector α) :=
  if ¬ sameObject then do
    let tmp ← SimpleVector.ofSize (GetSize rhs)
    let tmpItems ← copyRange rhs.items_ 0 rhs.size_ tmp.items_ 0
    let tmp : SimpleVector α :=
      { items_ := tmpItems, size_ := tmp.size_, capacity_ := tmp.capacity_ }
    pure ((swap this tmp).1, rhs)
  else
    pure (this, this)

/-- The move assignment `operator=(SimpleVector&& rhs) noexcept`: `this->swap(rhs)`.
Returns `*this` and `rhs` after the call. -/
def moveAssign (this rhs : SimpleVector α) : SimpleVector α × SimpleVector α :=
  swap this rhs

/-- The overload `Insert(ConstIterator pos, const Type& value)`, whose body is
`return Insert(pos, std::move(value));`.  Here `value` is a `const Type&`, so
`std::move(value)` is a `const Type&&`; it cannot bind to the `Type&&` parameter of the
other overload and binds to `const Type&`, so the call is to this same overload with the
same arguments.  `fuel` bounds the depth of the calls; `none` is a call that has not
returned within that depth. -/
def InsertCopy (v : SimpleVector α) (pos : Nat) (value : α) :
    Nat → Option (Except Fault (SimpleVector α × Iterator))
  | 0 => none
  | fuel + 1 => InsertCopy v pos value fuel

/-- The loop of `std::lexicographical_compare(first1, last1, first2, last2)` with
`operator<` of the element type, on the two ranges of slots.  The result is `none` when
the comparison reads a slot that was never written (an indeterminate value). -/
def lexicographical_compare [LT α] [DecidableRel (fun x y : α => x < y)] :
    List (Slot α) → List (Slot α) → Option Bool
  | [], [] => some false
  | [], _ :: _ => some true
  | _ :: _, [] => some false
  | some x :: xs, some y :: ys =>
      if x < y then some true
      else if y < x then some false
      else lexicographical_compare xs ys
  | _ :: _, _ :: _ => none

section Comparison

variable [LT α] [DecidableRel (fun x y : α => x < y)]

/-- The free function `operator<`: `lexicographical_compare` over `[begin(), end())` of both
operands, the slots `[0, size_)`. -/
def operatorLt (lhs rhs : SimpleVector α) : Option Bool :=
  lexicographical_compare (live lhs) (live rhs)

/-- The free function `operator<=`: `!(rhs < lhs)`. -/
def operatorLe (lhs rhs : SimpleVector α) : Option Bool :=
  (operatorLt rhs lhs).map (fun r => !r)

/-- The free function `operator>`: `rhs < lhs`. -/
def operatorGt (lhs rhs : SimpleVector α) : Option Bool :=
  operatorLt rhs lhs

/-- The free function `operator>=`: `!(lhs < rhs)`. -/
def operatorGe (lhs rhs : SimpleVector α) : Option Bool :=
  (operatorLt lhs rhs).map (fun r => !r)

/-- The free function `operator!=`: `(lhs < rhs) || (lhs > rhs)`, the second operand
evaluated only when the first is false. -/
def operatorNe (lhs rhs : SimpleVector α) : Option Bool :=
  match operatorLt lhs rhs with
  | some true => some true
  | some false => operatorGt lhs rhs
  | none => none

/-- The free function `operator==`: `!(lhs != rhs)`. -/
def operatorEq (lhs rhs : SimpleVector α) : Option Bool :=
  (operatorNe lhs rhs).map (fun r => !r)

end Comparison

/-- The first clause of the lexicographic order in the words of the claim: there is a first
index `k` at which the sequences differ, and there the left element is the smaller. -/
def FirstDiffLess [LT α] (xs ys : List α) : Prop :=
  ∃ (k : Nat) (x y : α), xs[k]? = some x ∧ ys[k]? = some y ∧ x < y ∧
    ∀ j : Nat, j < k → xs[j]? = ys[j]?

/-- The second clause of the lexicographic order in the words of the claim: the left
sequence is shorter and equals the first elements of the right one. -/
def StrictPrefix (xs ys : List α) : Prop :=
  xs.length < ys.length ∧ ∀ j : Nat, j < xs.length → xs[j]? = ys[j]?

/-- The growth sequence 0, 1, 2, 4, 8, ... in the words of the spec. -/
def growthSequence : Nat → Nat
  | 0 => 0
  | n + 1 => 2 ^ n

/-! ## The buffer loops -/

theorem readAt_append (a : ArrayPtr α) (x : Slot α) (b : ArrayPtr α) (i : Nat)
    (hi : a.length = i) : readAt (a ++ x :: b) i = .ok x := by
  subst hi
  have h : (a ++ x :: b)[a.length]? = some x := by
    rw [List.getElem?_append_right (Nat.le_refl _)]; simp
  simp only [readAt, h]

theorem writeAt_append (a : ArrayPtr α) (m x : Slot α) (b : ArrayPtr α) (i : Nat)
    (hi : a.length = i) : writeAt (a ++ m :: b) i x = .ok (a ++ x :: b) := by
  subst hi
  simp [writeAt]

theorem writeAt_length_le (buf : ArrayPtr α) (i : Nat) (x : Slot α) (hi : buf.length ≤ i) :
    writeAt buf i x = .error .outOfBounds := by
  simp [writeAt, Nat.not_lt.mpr hi]

/-- Copying `xs` out of `a ++ xs ++ b` over the block `mid` of `pre ++ mid ++ post`. -/
theorem copyRange_append (xs : List (Slot α)) :
    ∀ (a b pre mid post : ArrayPtr α) (first d : Nat),
      a.length = first → pre.length = d → mid.length = xs.length →
      copyRange (a ++ xs ++ b) first xs.length (pre ++ mid ++ post) d
        = .ok (pre ++ xs ++ post) := by
  induction xs with
  | nil =>
    intro a b pre mid post first d _ _ hm
    have : mid = [] := List.length_eq_zero.mp hm
    simp [copyRange, this]
  | cons x xs ih =>
    intro a b pre mid post first d ha hp hm
    cases mid with
    | nil => simp at hm
    | cons m mid =>
      simp only [List.length_cons, copyRange]
      have hr : readAt (a ++ x :: xs ++ b) first = .ok x := by
        simpa using readAt_append a x (xs ++ b) first ha
      have hw : writeAt (pre ++ m :: mid ++ post) d x = .ok (pre ++ x :: mid ++ post) := by
        simpa using writeAt_append pre m x (mid ++ post) d hp
      rw [hr]
      simp only [bind, Except.bind]
      rw [hw]
      simp only []
      have := ih (a ++ [x]) b (pre ++ [x]) mid post (first + 1) (d + 1) (by simp [ha])
        (by simp [hp]) (by simpa using hm)
      simpa using this

theorem split3 (l : List (Slot α)) (i n : Nat) (h : i + n ≤ l.length) :
    l = l.take i ++ (l.drop i).take n ++ (l.drop i).drop n ∧
    (l.take i).length = i ∧ ((l.drop i).take n).length = n := by
  refine ⟨?_, ?_, ?_⟩
  · rw [List.append_assoc, List.take_append_drop, List.take_append_drop]
  · simp; omega
  · simp; omega

/-- The copy loop inside the bounds of both buffers. -/
theorem copyRange_ok (src dst : ArrayPtr α) (first n d : Nat)
    (hs : first + n ≤ src.length) (hd : d + n ≤ dst.length) :
    copyRange src first n dst d
      = .ok (dst.take d ++ (src.drop first).take n ++ dst.drop (d + n)) := by
  obtain ⟨e1, l1, l2⟩ := split3 src first n hs
  obtain ⟨e2, l3, l4⟩ := split3 dst d n hd
  have := copyRange_append ((src.drop first).take n) (src.take first) ((src.drop first).drop n)
    (dst.take d) ((dst.drop d).take n) ((dst.drop d).drop n) first d l1 l3 (by rw [l2, l4])
  rw [← e1, ← e2, l2, List.drop_drop] at this
  exact this

/-- The loop of `std::fill` / of the initializer-list copy over a block of the buffer. -/
theorem writeRange_append (xs : List α) :
    ∀ (pre mid post : ArrayPtr α) (d : Nat),
      pre.length = d → mid.length = xs.length →
      writeRange xs (pre ++ mid ++ post) d = .ok (pre ++ xs.map some ++ post) := by
  induction xs with
  | nil =>
    intro pre mid post d _ hm
    have : mid = [] := List.length_eq_zero.mp hm
    simp [writeRange, this]
  | cons x xs ih =>
    intro pre mid post d hp hm
    cases mid with
    | nil => simp at hm
    | cons m mid =>
      simp only [writeRange]
      have hw : writeAt (pre ++ m :: mid ++ post) d (some x)
          = .ok (pre ++ some x :: mid ++ post) := by
        simpa using writeAt_append pre m (some x) (mid ++ post) d hp
      rw [hw]
      simp only [bind, Except.bind]
      have := ih (pre ++ [some x]) mid post (d + 1) (by simp [hp]) (by simpa using hm)
      simpa using this

/-- Filling fresh storage of exactly `xs.length` slots. -/
theorem writeRange_alloc (xs : List α) :
    writeRange xs (ArrayPtr.alloc xs.length) 0 = .ok (xs.map some) := by
  have := writeRange_append xs [] (ArrayPtr.alloc xs.length) [] 0 rfl (by simp [ArrayPtr.alloc])
  simpa using this

/-- The shift-left loop of `Erase`: the block `xs` moves one slot down over `m`; the slot
that held the last moved element keeps its value. -/
theorem moveWithin_append (xs : List (Slot α)) :
    ∀ (pre : ArrayPtr α) (m : Slot α) (post : ArrayPtr α) (d : Nat),
      pre.length = d →
      moveWithin (pre ++ m :: xs ++ post) (d + 1) xs.length d
        = .ok (pre ++ xs ++ xs.getLastD m :: post) := by
  induction xs with
  | nil =>
    intro pre m post d _
    simp [moveWithin]
  | cons x xs ih =>
    intro pre m post d hp
    simp only [List.length_cons, moveWithin]
    have hr : readAt (pre ++ m :: (x :: xs) ++ post) (d + 1) = .ok x := by
      have := readAt_append (pre ++ [m]) x (xs ++ post) (d + 1) (by simp [hp])
      simpa using this
    have hw : writeAt (pre ++ m :: (x :: xs) ++ post) d x
        = .ok (pre ++ x :: (x :: xs) ++ post) := by
      simpa using writeAt_append pre m x ((x :: xs) ++ post) d hp
    rw [hr]
    simp only [bind, Except.bind]
    rw [hw]
    simp only []
    have := ih (pre ++ [x]) x post (d + 1) (by simp [hp])
    have hl : (x :: xs).getLastD m = xs.getLastD x := by
      cases xs <;> simp [List.getLastD]
    rw [hl]
    simpa using this

/-- The fill loop of the reallocating branch of `Resize` over a block of the buffer. -/
theorem resizeFillLoop_append [Inhabited α] (mid : ArrayPtr α) :
    ∀ (pre post : ArrayPtr α) (it stop : Nat),
      pre.length = it → it + mid.length = stop →
      resizeFillLoop stop (pre ++ mid ++ post) it
        = .ok (pre ++ List.replicate mid.length (some (default : α)) ++ post) := by
  induction mid with
  | nil =>
    intro pre post it stop _ hs
    rw [resizeFillLoop]
    simp at hs
    simp [hs]
  | cons m mid ih =>
    intro pre post it stop hp hs
    rw [resizeFillLoop]
    have hlt : it < stop := by simp at hs; omega
    have hw : writeAt (pre ++ m :: mid ++ post) it (some default)
        = .ok (pre ++ some default :: mid ++ post) := by
      simpa using writeAt_append pre m (some default) (mid ++ post) it hp
    simp only [hlt, if_true, hw]
    have := ih (pre ++ [some default]) post (it + 1) stop (by simp [hp])
      (by simp at hs; omega)
    simpa [List.replicate_succ] using this

/-- The loop of the in-place branch of `Resize` never leaves through its condition: with a
positive `delta` the test `it < it + delta` holds at every iteration, and the loop writes
on until it leaves the buffer. -/
theorem resizeInPlaceLoop_fault [Inhabited α] (delta : Nat) (hdelta : 0 < delta) :
    ∀ (k : Nat) (buf : ArrayPtr α) (it : Nat), buf.length - it = k →
      resizeInPlaceLoop delta buf it = .error .outOfBounds := by
  intro k
  induction k with
  | zero =>
    intro buf it hk
    rw [resizeInPlaceLoop]
    have h1 : it < it + delta := by omega
    have h2 : ¬ it < buf.length := by omega
    simp [h1, h2]
  | succ k ih =>
    intro buf it hk
    rw [resizeInPlaceLoop]
    have h1 : it < it + delta := by omega
    have h2 : it < buf.length := by omega
    simp only [h1, h2, if_true]
    exact ih _ _ (by simp only [List.length_set]; omega)

theorem split_at (l : List (Slot α)) (i : Nat) (h : i < l.length) :
    ∃ m, l = l.take i ++ m :: l.drop (i + 1) := by
  refine ⟨l[i], ?_⟩
  rw [← List.drop_eq_getElem_cons h, List.take_append_drop]

/-- The copy loop writes past the destination when the range does not fit into it. -/
theorem copyRange_overflow (src : ArrayPtr α) :
    ∀ (n first : Nat) (dst : ArrayPtr α) (d : Nat),
      first + n ≤ src.length → d ≤ dst.length → dst.length < d + n →
      copyRange src first n dst d = .error .outOfBounds := by
  intro n
  induction n with
  | zero => intro first dst d _ h1 h2; omega
  | succ n ih =>
    intro first dst d hs h1 h2
    simp only [copyRange]
    obtain ⟨x, hx⟩ : ∃ x, readAt src first = .ok x := by
      have hlt : first < src.length := by omega
      exact ⟨src[first], by simp [readAt, List.getElem?_eq_getElem hlt]⟩
    rw [hx]
    simp only [bind, Except.bind]
    by_cases hd : d < dst.length
    · simp only [writeAt, hd, if_true]
      exact ih (first + 1) _ (d + 1) (by omega) (by simp only [List.length_set]; omega)
        (by simp only [List.length_set]; omega)
    · rw [writeAt_length_le dst d x (by omega)]

/-! ## PushBack -/

/-- What one `PushBack` does to a vector that satisfies the class invariant. -/
theorem PushBack_spec (v : SimpleVector α) (item : α) (hv : Inv v) :
    ∃ w, PushBack v item = .ok w ∧ Inv w ∧ w.size_ = v.size_ + 1 ∧
      live w = live v ++ [some item] ∧
      w.capacity_ = (if v.size_ < v.capacity_ then v.capacity_
        else if v.capacity_ = 0 then 2 else 2 * v.capacity_) := by
  obtain ⟨hcap, hle⟩ := hv
  by_cases hlt : v.size_ < v.capacity_
  · obtain ⟨m, hm⟩ := split_at v.items_ v.size_ (by omega)
    have hlen : (v.items_.take v.size_).length = v.size_ := by simp; omega
    have hw := writeAt_append (v.items_.take v.size_) m (some item)
      (v.items_.drop (v.size_ + 1)) v.size_ hlen
    rw [← hm] at hw
    refine ⟨_, by simp only [PushBack, hlt, if_true, hw]; rfl, ?_, rfl, ?_, by simp [hlt]⟩
    · constructor
      · have h1 : (v.items_.take v.size_ ++ some item :: v.items_.drop (v.size_ + 1)).length
            = v.items_.length := by
          conv_rhs => rw [hm]
          simp
        simpa [h1] using hcap
      · simp only []; omega
    · simp only [live]
      rw [List.take_append_eq_append_take, hlen]
      simp
  · have hsz : v.size_ = v.items_.length := by omega
    let c := if v.capacity_ = 0 then v.capacity_ + 1 else v.capacity_
    have hc : c * 2 = (if v.capacity_ = 0 then 2 else 2 * v.capacity_) := by
      simp only [c]; split <;> omega
    have hpos : v.size_ < c * 2 := by
      rw [hc]; split <;> omega
    have hcopy := copyRange_ok v.items_ (ArrayPtr.alloc (c * 2)) 0 v.size_ 0
      (by omega) (by simp [ArrayPtr.alloc]; omega)
    have hfresh : (ArrayPtr.alloc (c * 2) : ArrayPtr α).drop (0 + v.size_)
        = none :: List.replicate (c * 2 - v.size_ - 1) none := by
      simp only [ArrayPtr.alloc, List.drop_replicate, Nat.zero_add]
      rw [← List.replicate_succ]
      congr 1; omega
    have htake : (v.items_.drop 0).take v.size_ = v.items_ := by
      simp [hsz]
    rw [hfresh, htake] at hcopy
    simp only [List.take_zero, List.nil_append] at hcopy
    have hw := writeAt_append v.items_ none (some item)
      (List.replicate (c * 2 - v.size_ - 1) none) v.size_ hsz.symm
    refine ⟨⟨v.items_ ++ some item :: List.replicate (c * 2 - v.size_ - 1) none,
      v.size_ + 1, c * 2⟩, ?_, ?_, rfl, ?_, ?_⟩
    · simp only [PushBack, hlt, if_false]
      show (do
        let newArray ← copyRange v.items_ 0 v.size_ (ArrayPtr.alloc (c * 2)) 0
        let newArray ← writeAt newArray v.size_ (some item)
        pure (⟨newArray, v.size_ + 1, c * 2⟩ : SimpleVector α)) = _
      rw [hcopy]
      simp only [bind, Except.bind]
      rw [hw]
      rfl
    · constructor
      · simp; omega
      · simp only []; omega
    · simp only [live]
      rw [List.take_append_eq_append_take, ← hsz]
      simp [hsz]
    · simp only [hlt, if_false]; exact hc

/-- The default-constructed vector satisfies the class invariant. -/
theorem Inv_empty : Inv (SimpleVector.empty : SimpleVector α) := by
  simp [Inv, SimpleVector.empty, ArrayPtr.alloc]

/-- A run of `PushBack` calls on a vector that satisfies the class invariant. -/
theorem pushAll_spec (xs : List α) :
    ∀ v : SimpleVector α, Inv v →
      ∃ w, pushAll v xs = .ok w ∧ Inv w ∧ w.size_ = v.size_ + xs.length ∧
        live w = live v ++ xs.map some := by
  induction xs with
  | nil => intro v hv; exact ⟨v, rfl, hv, by simp, by simp⟩
  | cons x xs ih =>
    intro v hv
    obtain ⟨w, hw, hwi, hws, hwl, _⟩ := PushBack_spec v x hv
    obtain ⟨u, hu, hui, hus, hul⟩ := ih w hwi
    refine ⟨u, ?_, hui, ?_, ?_⟩
    · simp only [pushAll, hw, bind, Except.bind]; exact hu
    · rw [hus, hws]; simp; omega
    · rw [hul, hwl]; simp

theorem pushAllCopy_eq (xs : List α) : ∀ v : SimpleVector α, pushAllCopy v xs = pushAll v xs := by
  induction xs with
  | nil => intro v; rfl
  | cons x xs ih =>
    intro v
    simp only [pushAllCopy, pushAll, PushBackCopy]
    cases PushBack v x with
    | error e => rfl
    | ok w => simp only [bind, Except.bind]; exact ih w

/-- C1: for every finite sequence of values, the `PushBack` calls in that order on a
default-constructed vector (through either overload) return a vector whose `GetSize()` is
the number of calls and whose live elements are the pushed values in push order. -/
theorem C1_pushBack_sequence (vs : List α) :
    ∃ w, pushAll (SimpleVector.empty : SimpleVector α) vs = .ok w ∧
      pushAllCopy (SimpleVector.empty : SimpleVector α) vs = .ok w ∧
      GetSize w = vs.length ∧ live w = vs.map some := by
  obtain ⟨w, hw, _, hs, hl⟩ := pushAll_spec vs (SimpleVector.empty : SimpleVector α) Inv_empty
  refine ⟨w, hw, by rw [pushAllCopy_eq]; exact hw, ?_, ?_⟩
  · simpa [GetSize, SimpleVector.empty] using hs
  · simpa [live, SimpleVector.empty, ArrayPtr.alloc] using hl

/-- C2 (the code at the failing input): `PushBack` on the default-constructed vector, whose
size and capacity are both 0, returns a vector of capacity 2, not 1: the branch raises
`capacity_` from 0 to 1 and then doubles it as on every other reallocation. -/
theorem C2_pushBack_empty_capacity (item : α) :
    ∃ w, PushBack (SimpleVector.empty : SimpleVector α) item = .ok w ∧
      w.size_ = 1 ∧ GetCapacity w = 2 ∧ GetCapacity w ≠ 1 := by
  refine ⟨⟨[some item, none], 1, 2⟩, rfl, rfl, rfl, by simp [GetCapacity]⟩

/-! ## Insert -/

theorem take_set_succ (l : List (Slot α)) (i : Nat) (x : Slot α) (h : i < l.length) :
    (l.set i x).take (i + 1) = l.take i ++ [x] := by
  rw [List.set_eq_take_append_cons_drop, if_pos h, List.take_append_eq_append_take]
  simp [Nat.min_eq_left (Nat.le_of_lt h)]

/-- Calling `Insert` strictly before `end()` on a vector with a free slot: the contents are as
intended, and the returned pointer is the argument `pos`, which points into the buffer that
has been replaced. -/
theorem Insert_spare (v : SimpleVector α) (pos : Nat) (value : α) (hv : Inv v)
    (hpos : pos < v.size_) (hroom : v.size_ < v.capacity_) :
    ∃ w, Insert v pos value = .ok (w, ⟨.released, pos⟩) ∧ Inv w ∧
      w.size_ = v.size_ + 1 ∧ w.capacity_ = v.capacity_ ∧
      live w = (live v).take pos ++ some value :: (live v).drop pos := by
  obtain ⟨hcap, hle⟩ := hv
  have h1 := copyRange_ok v.items_ (ArrayPtr.alloc v.capacity_) 0 pos 0 (by omega)
    (by simp [ArrayPtr.alloc]; omega)
  generalize hR1 : (ArrayPtr.alloc v.capacity_ : ArrayPtr α).take 0
    ++ (v.items_.drop 0).take pos ++ (ArrayPtr.alloc v.capacity_ : ArrayPtr α).drop (0 + pos)
    = R1 at h1
  have hR1len : R1.length = v.capacity_ := by
    rw [← hR1]; simp [ArrayPtr.alloc]; omega
  have hR1take : R1.take pos = v.items_.take pos := by
    rw [← hR1]
    simp only [List.take_zero, List.nil_append, List.drop_zero]
    rw [List.take_append_of_le_length (by simp; omega)]
    simp
  have h2 : writeAt R1 pos (some value) = .ok (R1.set pos (some value)) := by
    simp [writeAt, hR1len]; omega
  have h3 := copyRange_ok v.items_ (R1.set pos (some value)) pos (v.size_ - pos) (pos + 1)
    (by omega) (by simp only [List.length_set]; omega)
  generalize hR3 : (R1.set pos (some value)).take (pos + 1)
    ++ (v.items_.drop pos).take (v.size_ - pos)
    ++ (R1.set pos (some value)).drop (pos + 1 + (v.size_ - pos)) = R3 at h3
  have hfirst : (R1.set pos (some value)).take (pos + 1) = v.items_.take pos ++ [some value] := by
    rw [take_set_succ R1 pos (some value) (by omega), hR1take]
  have hR3len : R3.length = v.capacity_ := by
    rw [← hR3]; simp [hR1len]; omega
  have hlive : R3.take (v.size_ + 1)
      = v.items_.take pos ++ [some value] ++ (v.items_.drop pos).take (v.size_ - pos) := by
    rw [← hR3, hfirst]
    apply List.take_left'
    simp; omega
  refine ⟨⟨R3, v.size_ + 1, v.capacity_⟩, ?_, ⟨?_, ?_⟩, rfl, rfl, ?_⟩
  · have hn1 : ¬ ¬ pos ≤ v.size_ := by omega
    have hn2 : ¬ pos = v.size_ := by omega
    simp only [Insert, hn1, hn2, if_false]
    rw [h1]
    simp only [bind, Except.bind]
    rw [h2]
    simp only []
    rw [h3]
    rfl
  · simp only []; omega
  · simp only []; omega
  · simp only [live]
    rw [hlive, List.take_take, List.drop_take, Nat.min_eq_left (Nat.le_of_lt hpos)]
    simp

/-- Calling `Insert` at `end()` is `PushBack`; the returned pointer is `end() - 1` of the vector
after the call. -/
theorem Insert_at_end (v : SimpleVector α) (value : α) (hv : Inv v) :
    ∃ w, PushBack v value = .ok w ∧
      Insert v v.size_ value = .ok (w, ⟨.current, v.size_⟩) := by
  obtain ⟨w, hw, _, hs, _⟩ := PushBack_spec v value hv
  refine ⟨w, hw, ?_⟩
  simp only [Insert, Nat.le_refl, not_true_eq_false, if_false, if_true, hw, bind, Except.bind]
  simp [pure, Except.pure, hs]

/-- Calling `Insert` strictly before `end()` on a full vector: the new buffer has `capacity_`
slots, as many as the old one, and copying the tail one slot to the right writes the last
element to slot `capacity_`, outside the buffer. -/
theorem Insert_full_overflow (v : SimpleVector α) (pos : Nat) (value : α) (hv : Inv v)
    (hpos : pos < v.size_) (hfull : v.size_ = v.capacity_) :
    Insert v pos value = .error .outOfBounds := by
  obtain ⟨hcap, hle⟩ := hv
  have h1 := copyRange_ok v.items_ (ArrayPtr.alloc v.capacity_) 0 pos 0 (by omega)
    (by simp [ArrayPtr.alloc]; omega)
  generalize hR1 : (ArrayPtr.alloc v.capacity_ : ArrayPtr α).take 0
    ++ (v.items_.drop 0).take pos ++ (ArrayPtr.alloc v.capacity_ : ArrayPtr α).drop (0 + pos)
    = R1 at h1
  have hR1len : R1.length = v.capacity_ := by
    rw [← hR1]; simp [ArrayPtr.alloc]; omega
  have h2 : writeAt R1 pos (some value) = .ok (R1.set pos (some value)) := by
    simp [writeAt, hR1len]; omega
  have h3 := copyRange_overflow v.items_ (v.size_ - pos) pos (R1.set pos (some value)) (pos + 1)
    (by omega) (by simp only [List.length_set]; omega) (by simp only [List.length_set]; omega)
  have hn1 : ¬ ¬ pos ≤ v.size_ := by omega
  have hn2 : ¬ pos = v.size_ := by omega
  simp only [Insert, hn1, hn2, if_false]
  rw [h1]
  simp only [bind, Except.bind]
  rw [h2]
  simp only []
  rw [h3]

/-- C3 (the code at two inputs): on the full vector built from the initializer list
`{1, 2}`, `Insert(begin(), 9)` writes outside the new buffer instead of returning `{9, 1, 2}`;
and on the vector `[1, 2, 3]` of capacity 4 obtained by three `PushBack` calls,
`Insert(begin() + 1, 9)` leaves `[1, 9, 2, 3]` with size 4 but returns the pointer it was
given, which points into the buffer the call has replaced and released. -/
theorem C3_insert_failing_inputs :
    (SimpleVector.ofList [1, 2] >>= fun v => Insert v 0 (9 : Int)) = .error .outOfBounds ∧
    (pushAll SimpleVector.empty [1, 2, 3] >>= fun v => Insert v 1 (9 : Int))
      = .ok (⟨[some 1, some 9, some 2, some 3], 4, 4⟩, ⟨.released, 1⟩) :=
  ⟨rfl, rfl⟩

/-- C4 (the code on every full vector): `Insert` at a position strictly before `end()` of
a vector with `size_ == capacity_` does not double the capacity; it allocates a buffer of
the old capacity and runs off its end while shifting the tail. -/
theorem C4_insert_full_before_end (v : SimpleVector α) (pos : Nat) (value : α)
    (hv : Inv v) (hpos : pos < v.size_) (hfull : v.size_ = v.capacity_) :
    Insert v pos value = .error .outOfBounds :=
  Insert_full_overflow v pos value hv hpos hfull

/-- C4 at the full vector `[1, 2, 3]` of capacity 3, position 1. -/
theorem C4_insert_full_before_end_witness :
    Inv (⟨[some 1, some 2, some 3], 3, 3⟩ : SimpleVector Int) ∧
    Insert (⟨[some 1, some 2, some 3], 3, 3⟩ : SimpleVector Int) 1 9 = .error .outOfBounds :=
  ⟨by decide, C4_insert_full_before_end ⟨[some 1, some 2, some 3], 3, 3⟩ 1 9
    (by decide) (by decide) (by decide)⟩

/-! ## Erase -/

/-- What `Erase` does to a vector that satisfies the class invariant. -/
theorem Erase_spec (v : SimpleVector α) (pos : Nat) (hv : Inv v) (hpos : pos < v.size_) :
    ∃ w, Erase v pos = .ok (w, ⟨.current, pos⟩) ∧ Inv w ∧
      w.size_ = v.size_ - 1 ∧ w.capacity_ = v.capacity_ ∧
      live w = (live v).eraseIdx pos := by
  obtain ⟨hcap, hle⟩ := hv
  obtain ⟨e, l1, l2⟩ := split3 v.items_ (pos + 1) (v.size_ - (pos + 1)) (by omega)
  obtain ⟨m, hm⟩ : ∃ m, v.items_.take (pos + 1) = v.items_.take pos ++ [m] := by
    rw [List.take_succ]
    cases h : v.items_[pos]? with
    | none => rw [List.getElem?_eq_none_iff] at h; omega
    | some y => exact ⟨y, rfl⟩
  generalize hxs : (v.items_.drop (pos + 1)).take (v.size_ - (pos + 1)) = xs at e l2
  generalize hpost : (v.items_.drop (pos + 1)).drop (v.size_ - (pos + 1)) = post at e
  have hprelen : (v.items_.take pos).length = pos := by simp; omega
  have hmove := moveWithin_append xs (v.items_.take pos) m post pos hprelen
  rw [hm] at e
  have e2 : v.items_ = v.items_.take pos ++ m :: xs ++ post := by
    conv_lhs => rw [e]
    simp
  rw [← e2, l2] at hmove
  refine ⟨⟨v.items_.take pos ++ xs ++ xs.getLastD m :: post, v.size_ - 1, v.capacity_⟩,
    ?_, ⟨?_, ?_⟩, rfl, rfl, ?_⟩
  · have hn : ¬ ¬ pos < v.size_ := by omega
    simp only [Erase, hn, if_false]
    rw [hmove]
    rfl
  · have hl : v.items_.length = (v.items_.take pos ++ m :: xs ++ post).length := by rw [← e2]
    simp only []
    rw [hcap, hl]
    simp
    omega
  · simp only []; omega
  · simp only [live]
    rw [List.take_left' (by simp [l2]; omega), List.eraseIdx_eq_take_drop_succ,
      List.take_take, List.drop_take, Nat.min_eq_left (Nat.le_of_lt hpos), hxs]

/-- C5: for a vector with `n ≥ 1` live elements and an index `i < n`, `Erase(begin() + i)`
returns a vector of size `n - 1` and unchanged capacity whose live elements are the old ones
without the `i`-th, in order; the returned iterator designates index `i` of the current
buffer, which holds the former element `i + 1`, or is `end()` when `i` was `n - 1`. -/
theorem C5_erase (v : SimpleVector α) (i : Nat) (hv : Inv v) (hi : i < v.size_) :
    ∃ w it, Erase v i = .ok (w, it) ∧
      GetSize w = GetSize v - 1 ∧ GetCapacity w = GetCapacity v ∧
      live w = (live v).take i ++ (live v).drop (i + 1) ∧
      it = ⟨.current, i⟩ ∧
      (i + 1 < v.size_ → (live w)[i]? = (live v)[i + 1]? ∧ (live w)[i]? ≠ none) ∧
      (i + 1 = v.size_ → it = w.end_) := by
  obtain ⟨w, hw, _, hs, hc, hl⟩ := Erase_spec v i hv hi
  have hlen : (live v).length = v.size_ := by
    simp only [live, List.length_take]; have := hv.1; have := hv.2; omega
  refine ⟨w, ⟨.current, i⟩, hw, hs, hc, ?_, rfl, ?_, ?_⟩
  · rw [hl, List.eraseIdx_eq_take_drop_succ]
  · intro h
    have hget : (live w)[i]? = (live v)[i + 1]? := by
      rw [hl, List.getElem?_eraseIdx]
      simp
    refine ⟨hget, ?_⟩
    rw [hget, List.getElem?_eq_getElem (by omega)]
    simp
  · intro h
    simp only [SimpleVector.end_, hs]
    congr 1
    omega

/-- C5 at the vector `[1, 2, 3]` of capacity 4, index 0. -/
theorem C5_erase_witness :
    Inv (⟨[some 1, some 2, some 3, none], 3, 4⟩ : SimpleVector Int) ∧ 0 < 3 ∧
    ∃ w it, Erase (⟨[some 1, some 2, some 3, none], 3, 4⟩ : SimpleVector Int) 0 = .ok (w, it) ∧
      GetSize w = 3 - 1 ∧ GetCapacity w = 4 ∧
      live w = [] ++ [some 2, some 3] ∧
      it = ⟨.current, 0⟩ ∧
      (0 + 1 < 3 → (live w)[0]? = some (some 2) ∧ (live w)[0]? ≠ none) ∧
      (0 + 1 = 3 → it = w.end_) :=
  ⟨by decide, by decide,
    C5_erase ⟨[some 1, some 2, some 3, none], 3, 4⟩ 0 (by decide) (by decide)⟩

/-! ## The class invariant -/

/-- The initializer-list constructor. -/
theorem ofList_eq (init : List α) :
    SimpleVector.ofList init = .ok ⟨init.map some, init.length, init.length⟩ := by
  simp only [SimpleVector.ofList, writeRange_alloc]
  rfl

theorem Inv_ofList (init : List α) :
    Inv (⟨init.map some, init.length, init.length⟩ : SimpleVector α) := by
  simp [Inv]

theorem Inv_filled (size : Nat) (value : α) :
    Inv (⟨List.replicate size (some value), size, size⟩ : SimpleVector α) := by
  simp [Inv]

theorem Inv_PopBack (v : SimpleVector α) (hv : Inv v) : Inv (PopBack v) := by
  obtain ⟨hcap, hle⟩ := hv
  unfold PopBack
  split
  · exact ⟨hcap, by simp only []; omega⟩
  · exact ⟨hcap, hle⟩

theorem Inv_Clear (v : SimpleVector α) (hv : Inv v) : Inv (Clear v) :=
  ⟨hv.1, Nat.zero_le _⟩

theorem Inv_swap (v other : SimpleVector α) (hv : Inv v) (ho : Inv other) :
    Inv (swap v other).1 ∧ Inv (swap v other).2 :=
  ⟨ho, hv⟩


/-- C6 (the code at two failing inputs): the one-element vector `{7}` (size 1, capacity 1)
satisfies the class invariant and position 0 lies in `[begin, end]`, yet `Insert(begin(), 8)`
returns no vector that satisfies it: the call writes outside its buffer.  The same holds
for `Resize(2)` on a vector of size 1 and capacity 2. -/
theorem C6_invariant_failing_inputs :
    (Inv (⟨[some 7], 1, 1⟩ : SimpleVector Int) ∧
      ¬ ∃ r, Insert (⟨[some 7], 1, 1⟩ : SimpleVector Int) 0 8 = .ok r ∧ Inv r.1) ∧
    (Inv (⟨[some 7, none], 1, 2⟩ : SimpleVector Int) ∧
      ¬ ∃ w, Resize (⟨[some 7, none], 1, 2⟩ : SimpleVector Int) 2 = .ok w ∧ Inv w) := by
  refine ⟨⟨by decide, ?_⟩, ⟨by decide, ?_⟩⟩
  · rintro ⟨r, hr, _⟩
    have h : Insert (⟨[some 7], 1, 1⟩ : SimpleVector Int) 0 8 = .error .outOfBounds := rfl
    rw [h] at hr
    cases hr
  · rintro ⟨w, hw, _⟩
    have h : Resize (⟨[some 7, none], 1, 2⟩ : SimpleVector Int) 2 = .error .outOfBounds := by
      simp only [Resize]
      rw [resizeInPlaceLoop_fault (2 - 1) (by decide) _ _ _ rfl]
      rfl
    rw [h] at hw
    cases hw

/-! ## Resize -/

/-- C7 (the code on every input of the claim): for `size_ < newsize ≤ capacity_` the call
`Resize(newsize)` never reaches `size_ = newsize_`; its fill loop tests `it < it + delta`,
which is true at every iteration, and writes past the end of the buffer. -/
theorem C7_resize_within_capacity (v : SimpleVector α) [Inhabited α] (newsize : Nat)
    (hgrow : v.size_ < newsize) (hfit : newsize ≤ v.capacity_) :
    Resize v newsize = .error .outOfBounds := by
  have h1 : ¬ v.size_ ≥ newsize := by omega
  have h2 : v.capacity_ ≥ newsize := hfit
  simp only [Resize, h1, h2, if_false, if_true]
  rw [resizeInPlaceLoop_fault (newsize - v.size_) (by omega) _ _ _ rfl]
  rfl

/-- C7 at the vector left by one `PushBack(1)` on an empty vector (size 1, capacity 2),
`Resize(2)`. -/
theorem C7_resize_within_capacity_witness :
    (1 < 2 ∧ 2 ≤ 2) ∧
    Resize (⟨[some 1, none], 1, 2⟩ : SimpleVector Int) 2 = .error .outOfBounds :=
  ⟨by decide, C7_resize_within_capacity ⟨[some 1, none], 1, 2⟩ 2 (by decide) (by decide)⟩

/-- C8: for `newSize > capacity`, `Resize(newSize)` returns a vector with
`size == capacity == newSize` whose elements `[0, oldSize)` are the previous live elements
in order and whose elements `[oldSize, newSize)` are all `Type{}`. -/
theorem C8_resize_beyond_capacity (v : SimpleVector α) [Inhabited α] (newsize : Nat)
    (hv : Inv v) (hbig : v.capacity_ < newsize) :
    ∃ w, Resize v newsize = .ok w ∧ GetSize w = newsize ∧ GetCapacity w = newsize ∧
      w.items_.length = newsize ∧
      live w = live v ++ List.replicate (newsize - v.size_) (some (default : α)) := by
  obtain ⟨hcap, hle⟩ := hv
  have h1 := copyRange_ok v.items_ (ArrayPtr.alloc newsize) 0 v.size_ 0 (by omega)
    (by simp [ArrayPtr.alloc]; omega)
  have hR1 : (ArrayPtr.alloc newsize : ArrayPtr α).take 0 ++ (v.items_.drop 0).take v.size_
      ++ (ArrayPtr.alloc newsize : ArrayPtr α).drop (0 + v.size_)
      = v.items_.take v.size_ ++ List.replicate (newsize - v.size_) none ++ [] := by
    simp [ArrayPtr.alloc]
  rw [hR1] at h1
  have h2 := resizeFillLoop_append (List.replicate (newsize - v.size_) (none : Slot α))
    (v.items_.take v.size_) [] v.size_ newsize (by simp; omega) (by simp; omega)
  simp only [List.length_replicate] at h2
  have hn1 : ¬ v.size_ ≥ newsize := by omega
  have hn2 : ¬ v.capacity_ ≥ newsize := by omega
  refine ⟨⟨v.items_.take v.size_ ++ List.replicate (newsize - v.size_) (some default) ++ [],
    newsize, newsize⟩, ?_, rfl, rfl, ?_, ?_⟩
  · simp only [Resize, hn1, hn2, if_false]
    rw [h1]
    simp only [bind, Except.bind]
    rw [h2]
    rfl
  · simp; omega
  · simp only [live]
    rw [List.take_of_length_le (by simp; omega)]
    simp

/-- C8 at the vector `[1, 2]` of capacity 2, `Resize(5)`. -/
theorem C8_resize_beyond_capacity_witness :
    Inv (⟨[some 1, some 2], 2, 2⟩ : SimpleVector Int) ∧ 2 < 5 ∧
    ∃ w, Resize (⟨[some 1, some 2], 2, 2⟩ : SimpleVector Int) 5 = .ok w ∧ GetSize w = 5 ∧
      GetCapacity w = 5 ∧ w.items_.length = 5 ∧
      live w = [some 1, some 2] ++ [some 0, some 0, some 0] :=
  ⟨by decide, by decide,
    C8_resize_beyond_capacity ⟨[some 1, some 2], 2, 2⟩ 5 (by decide) (by decide)⟩

/-! ## At -/

/-- C9: `At(i)` fails with the out-of-range error exactly when `i ≥ size`; when `i < size`
it returns the `i`-th live element; in both cases the vector after the call is the vector
before it. -/
theorem C9_at (v : SimpleVector α) (i : Nat) (hv : Inv v) :
    ((At v i).1 = .error .outOfRange ↔ GetSize v ≤ i) ∧
    (i < GetSize v → ∃ x, (live v)[i]? = some x ∧ (At v i).1 = .ok x) ∧
    (At v i).2 = v := by
  obtain ⟨hcap, hle⟩ := hv
  by_cases h : i ≥ v.size_
  · refine ⟨?_, ?_, ?_⟩
    · simp [At, h, GetSize]
    · intro h2; simp only [GetSize] at h2; omega
    · simp [At, h]
  · have hlt : i < v.items_.length := by omega
    have hread : readAt v.items_ i = .ok (v.items_.get ⟨i, hlt⟩) := by
      simp [readAt, List.getElem?_eq_getElem hlt]
    refine ⟨?_, ?_, ?_⟩
    · simp only [At, h, if_false, hread, GetSize]
      exact ⟨fun hc => (by cases hc), fun hc => hc.elim⟩
    · intro _
      refine ⟨v.items_.get ⟨i, hlt⟩, ?_, ?_⟩
      · simp only [live]
        rw [List.getElem?_take_of_lt (by omega), List.getElem?_eq_getElem hlt]
        rfl
      · simp only [At, h, if_false, hread]
    · simp only [At, h, if_false]

/-- C9 at a vector of size 3: `At(5)` fails with the out-of-range error. -/
theorem C9_at_witness :
    Inv (⟨[some 1, some 9, some 2, none], 3, 4⟩ : SimpleVector Int) ∧
    (At (⟨[some 1, some 9, some 2, none], 3, 4⟩ : SimpleVector Int) 5).1
      = .error .outOfRange :=
  ⟨by decide,
    (C9_at ⟨[some 1, some 9, some 2, none], 3, 4⟩ 5 (by decide)).1.mpr (by decide)⟩

/-! ## Reserve -/

/-- The fill constructor `SimpleVector(size, value)`. -/
theorem filled_eq (size : Nat) (value : α) :
    SimpleVector.filled size value
      = .ok ⟨List.replicate size (some value), size, size⟩ := by
  have h := writeRange_alloc (List.replicate size value)
  simp only [List.length_replicate, List.map_replicate] at h
  simp only [SimpleVector.filled, h]
  rfl

/-- C10: for a vector with `size ≤ capacity`: if `n > capacity`, `Reserve(n)` returns a
vector of capacity `n` (a buffer of `n` slots) with the same size and the same live elements
in order, whose slots `[size, n)` hold `Type{}`; if `n ≤ capacity`, `Reserve(n)` returns
the vector unchanged. -/
theorem C10_reserve (v : SimpleVector α) [Inhabited α] (n : Nat) (hv : Inv v) :
    (v.capacity_ < n → ∃ w, Reserve v n = .ok w ∧ GetCapacity w = n ∧ w.items_.length = n ∧
      GetSize w = GetSize v ∧ live w = live v ∧
      w.items_.drop w.size_ = List.replicate (n - v.size_) (some (default : α))) ∧
    (n ≤ v.capacity_ → Reserve v n = .ok v) := by
  obtain ⟨hcap, hle⟩ := hv
  constructor
  · intro hbig
    have h1 := copyRange_ok v.items_ (List.replicate n (some (default : α))) 0 v.size_ 0
      (by omega) (by simp; omega)
    have hR1 : (List.replicate n (some (default : α))).take 0 ++ (v.items_.drop 0).take v.size_
        ++ (List.replicate n (some (default : α))).drop (0 + v.size_)
        = v.items_.take v.size_ ++ List.replicate (n - v.size_) (some default) := by
      simp
    rw [hR1] at h1
    have hlen : (v.items_.take v.size_).length = v.size_ := by simp; omega
    refine ⟨⟨v.items_.take v.size_ ++ List.replicate (n - v.size_) (some default), v.size_, n⟩,
      ?_, rfl, ?_, rfl, ?_, ?_⟩
    · have hgt : n > v.capacity_ := hbig
      simp only [Reserve, hgt, if_true, filled_eq, bind, Except.bind]
      rw [h1]
      rfl
    · simp; omega
    · simp only [live]
      rw [List.take_left' hlen]
    · simp only []
      rw [List.drop_left' hlen]
  · intro hsmall
    have hn : ¬ n > v.capacity_ := by omega
    simp only [Reserve, hn, if_false]
    rfl

/-- C10 at the vector `[1, 2, 3]` of capacity 4: `Reserve(7)` and `Reserve(4)`. -/
theorem C10_reserve_witness :
    Inv (⟨[some 1, some 2, some 3, none], 3, 4⟩ : SimpleVector Int) ∧
    (∃ w, Reserve (⟨[some 1, some 2, some 3, none], 3, 4⟩ : SimpleVector Int) 7 = .ok w ∧
      GetCapacity w = 7 ∧ w.items_.length = 7 ∧ GetSize w = 3 ∧
      live w = [some 1, some 2, some 3] ∧
      w.items_.drop w.size_ = [some 0, some 0, some 0, some 0]) ∧
    Reserve (⟨[some 1, some 2, some 3, none], 3, 4⟩ : SimpleVector Int) 4
      = .ok ⟨[some 1, some 2, some 3, none], 3, 4⟩ :=
  ⟨by decide,
    (C10_reserve ⟨[some 1, some 2, some 3, none], 3, 4⟩ 7 (by decide)).1 (by decide),
    (C10_reserve ⟨[some 1, some 2, some 3, none], 3, 4⟩ 4 (by decide)).2 (by decide)⟩

/-! ## Move assignment and move construction -/

/-- C11 (the claim at a non-empty destination): move-assigning the vector `{2, 3}` to the
vector `{1}` does not leave the source with size 0 and capacity 0; the source holds the
destination's former buffer, with size 1 and capacity 1. -/
theorem C11_move_assign_source_not_empty :
    ¬ ((moveAssign (⟨[some 1], 1, 1⟩ : SimpleVector Int) ⟨[some 2, some 3], 2, 2⟩).2.size_ = 0 ∧
      (moveAssign (⟨[some 1], 1, 1⟩ : SimpleVector Int) ⟨[some 2, some 3], 2, 2⟩).2.capacity_
        = 0) := by
  decide

/-- C11 (amended): move-assigning `a = std::move(b)` leaves `a` holding exactly `b`'s prior
buffer, hence its live elements, size and capacity, and leaves the source `b` holding `a`'s
prior live elements, size and capacity; the source has size 0 and capacity 0 afterwards
exactly when the destination had them before. -/
theorem C11_move_assign_exchanges (a b : SimpleVector α) :
    (moveAssign a b).1 = b ∧
    live (moveAssign a b).1 = live b ∧ GetSize (moveAssign a b).1 = GetSize b ∧
    GetCapacity (moveAssign a b).1 = GetCapacity b ∧
    (moveAssign a b).2 = a ∧
    live (moveAssign a b).2 = live a ∧ GetSize (moveAssign a b).2 = GetSize a ∧
    GetCapacity (moveAssign a b).2 = GetCapacity a ∧
    ((GetSize (moveAssign a b).2 = 0 ∧ GetCapacity (moveAssign a b).2 = 0) ↔
      (GetSize a = 0 ∧ GetCapacity a = 0)) := by
  have h1 : (moveAssign a b).1 = b := rfl
  have h2 : (moveAssign a b).2 = a := rfl
  rw [h1, h2]
  exact ⟨rfl, rfl, rfl, rfl, rfl, rfl, rfl, rfl, Iff.rfl⟩

/-- C18: move-constructing `b` from `a` gives `b` exactly `a`'s prior size, capacity and
live elements in order (its whole buffer), and leaves `a` with `IsEmpty()` true and
`GetCapacity() == 0`. -/
theorem C18_move_construct (a : SimpleVector α) :
    GetSize (moveConstruct a).1 = GetSize a ∧
    GetCapacity (moveConstruct a).1 = GetCapacity a ∧
    live (moveConstruct a).1 = live a ∧
    (moveConstruct a).1 = a ∧
    IsEmpty (moveConstruct a).2 = true ∧
    GetCapacity (moveConstruct a).2 = 0 :=
  ⟨rfl, rfl, rfl, rfl, rfl, rfl⟩

/-! ## Erase followed by Insert -/

theorem eraseIdx_reinsert (l : List (Slot α)) (i : Nat) (x : Slot α) (h : l[i]? = some x) :
    (l.eraseIdx i).take i ++ x :: (l.eraseIdx i).drop i = l := by
  have hlt : i < l.length := by
    by_contra hc
    rw [List.getElem?_eq_none_iff.mpr (by omega)] at h
    cases h
  have hlen : (l.take i).length = i := by simp; omega
  rw [List.eraseIdx_eq_take_drop_succ, List.take_left' hlen, List.drop_left' hlen]
  have hx : l.drop i = x :: l.drop (i + 1) := by
    rw [List.drop_eq_getElem_cons hlt]
    rw [List.getElem?_eq_getElem hlt] at h
    cases h
    rfl
  rw [← hx, List.take_append_drop]

/-- Erasing the element at `pos` and inserting its value again at `pos`. -/
theorem Erase_Insert_spec (v : SimpleVector α) (i : Nat) (x : α) (hv : Inv v)
    (hi : i < v.size_) (hx : (live v)[i]? = some (some x)) :
    ∃ w it u it2, Erase v i = .ok (w, it) ∧ it.offset = i ∧ Insert w i x = .ok (u, it2) ∧
      Inv u ∧ live u = live v ∧ u.size_ = v.size_ ∧ u.capacity_ = v.capacity_ := by
  obtain ⟨w, hw, hwi, hws, hwc, hwl⟩ := Erase_spec v i hv hi
  have hlive : (live w).take i ++ some x :: (live w).drop i = live v := by
    rw [hwl]; exact eraseIdx_reinsert (live v) i (some x) hx
  have hwlen : (live w).length = w.size_ := by
    simp only [live, List.length_take]; have := hwi.1; have := hwi.2; omega
  have hroom : w.size_ < w.capacity_ := by have := hv.2; omega
  by_cases hend : i = w.size_
  · obtain ⟨u, hu, hui, hus, hul, huc⟩ := PushBack_spec w x hwi
    obtain ⟨u2, hu2, hins⟩ := Insert_at_end w x hwi
    rw [hu] at hu2
    cases hu2
    refine ⟨w, ⟨.current, i⟩, u, _, hw, rfl, by rw [hend]; exact hins, hui, ?_, ?_, ?_⟩
    · rw [hul, ← hlive, hend, ← hwlen]
      simp
    · rw [hus, hws]; omega
    · rw [huc, if_pos hroom, hwc]
  · obtain ⟨u, hu, hui, hus, huc, hul⟩ := Insert_spare w i x hwi (by omega) hroom
    refine ⟨w, ⟨.current, i⟩, u, _, hw, rfl, hu, hui, ?_, ?_, ?_⟩
    · rw [hul, hlive]
    · rw [hus, hws]; omega
    · rw [huc, hwc]

/-- C15: for a vector with `n ≥ 1` live elements and an index `i < n` holding the value `x`,
`Erase` at index `i` followed by `Insert` of `x` at the returned position (index `i`)
restores the original live sequence, the original size and the original capacity. -/
theorem C15_erase_then_insert (v : SimpleVector α) (i : Nat) (x : α) (hv : Inv v)
    (hi : i < GetSize v) (hx : (live v)[i]? = some (some x)) :
    ∃ w it u it2, Erase v i = .ok (w, it) ∧ Insert w it.offset x = .ok (u, it2) ∧
      live u = live v ∧ GetSize u = GetSize v ∧ GetCapacity u = GetCapacity v := by
  obtain ⟨w, it, u, it2, hw, hoff, hu, _, hl, hs, hc⟩ := Erase_Insert_spec v i x hv hi hx
  exact ⟨w, it, u, it2, hw, by rw [hoff]; exact hu, hl, hs, hc⟩

/-- C15 at the vector `[1, 9, 2, 3]` of capacity 4 (a full vector), index 1. -/
theorem C15_erase_then_insert_witness :
    Inv (⟨[some 1, some 9, some 2, some 3], 4, 4⟩ : SimpleVector Int) ∧
    ∃ w it u it2,
      Erase (⟨[some 1, some 9, some 2, some 3], 4, 4⟩ : SimpleVector Int) 1 = .ok (w, it) ∧
      Insert w it.offset 9 = .ok (u, it2) ∧
      live u = [some 1, some 9, some 2, some 3] ∧ GetSize u = 4 ∧ GetCapacity u = 4 :=
  ⟨by decide,
    C15_erase_then_insert ⟨[some 1, some 9, some 2, some 3], 4, 4⟩ 1 9 (by decide) (by decide)
      rfl⟩

/-! ## Capacity growth under PushBack -/

/-- A run of `PushBack` calls on a non-empty vector whose capacity is a power of two
`2 ^ m` with `m ≥ 1` that is minimal for its size (or is 2) keeps that shape. -/
theorem pushAll_pow (xs : List α) :
    ∀ (v : SimpleVector α) (m : Nat), Inv v → 1 ≤ m → v.capacity_ = 2 ^ m →
      (m = 1 ∨ 2 ^ (m - 1) < v.size_) →
      ∃ w n, pushAll v xs = .ok w ∧ w.size_ = v.size_ + xs.length ∧ w.size_ ≤ w.capacity_ ∧
        1 ≤ n ∧ w.capacity_ = 2 ^ n ∧ (n = 1 ∨ 2 ^ (n - 1) < w.size_) := by
  induction xs with
  | nil =>
    intro v m hv hm hc hmin
    exact ⟨v, m, rfl, by simp, hv.2, hm, hc, hmin⟩
  | cons x xs ih =>
    intro v m hv hm hc hmin
    obtain ⟨u, hu, hui, hus, _, huc⟩ := PushBack_spec v x hv
    have hpos : 0 < 2 ^ m := Nat.two_pow_pos m
    by_cases hlt : v.size_ < v.capacity_
    · rw [if_pos hlt] at huc
      obtain ⟨w, n, hw, hws, hwle, hn, hwc, hwmin⟩ := ih u m hui hm (by rw [huc, hc])
        (by rcases hmin with h | h
            · exact Or.inl h
            · exact Or.inr (by omega))
      refine ⟨w, n, ?_, ?_, hwle, hn, hwc, hwmin⟩
      · simp only [pushAll, hu, bind, Except.bind]; exact hw
      · rw [hws, hus]; simp; omega
    · have hne : ¬ v.capacity_ = 0 := by omega
      rw [if_neg hlt, if_neg hne] at huc
      have hfull : v.size_ = 2 ^ m := by have := hv.2; omega
      obtain ⟨w, n, hw, hws, hwle, hn, hwc, hwmin⟩ := ih u (m + 1) hui (by omega)
        (by rw [huc, hc, Nat.pow_succ]; omega)
        (Or.inr (by simp only [Nat.add_sub_cancel]; omega))
      refine ⟨w, n, ?_, ?_, hwle, hn, hwc, hwmin⟩
      · simp only [pushAll, hu, bind, Except.bind]; exact hw
      · rw [hws, hus]; simp; omega

/-- The capacity after a run of `PushBack` calls on the default-constructed vector. -/
theorem pushAll_empty_capacity (vs : List α) :
    ∃ w, pushAll (SimpleVector.empty : SimpleVector α) vs = .ok w ∧
      vs.length ≤ w.capacity_ ∧
      (vs.length = 0 → w.capacity_ = 0) ∧
      (vs.length = 1 → w.capacity_ = 2) ∧
      (2 ≤ vs.length → ∃ n, 1 ≤ n ∧ w.capacity_ = 2 ^ n ∧ 2 ^ (n - 1) < vs.length) := by
  cases vs with
  | nil =>
    exact ⟨SimpleVector.empty, rfl, by simp, fun _ => rfl, by simp, by simp⟩
  | cons x xs =>
    obtain ⟨w, n, hw, hws, hwle, hn, hwc, hwmin⟩ :=
      pushAll_pow xs (⟨[some x, none], 1, 2⟩ : SimpleVector α) 1 (by simp [Inv])
        (Nat.le_refl 1) rfl (Or.inl rfl)
    have hstep : pushAll (SimpleVector.empty : SimpleVector α) (x :: xs)
        = pushAll (⟨[some x, none], 1, 2⟩ : SimpleVector α) xs := rfl
    simp only [] at hws
    refine ⟨w, by rw [hstep]; exact hw, ?_, by simp, ?_, ?_⟩
    · simp only [List.length_cons]; omega
    · intro h1
      have hxs : xs = [] := by
        cases xs with
        | nil => rfl
        | cons y ys => simp at h1
      subst hxs
      cases hw
      rfl
    · intro h2
      simp only [List.length_cons] at h2 ⊢
      refine ⟨n, hn, hwc, ?_⟩
      rcases hwmin with h | h
      · subst h; simp; omega
      · omega

/-- C16 (the code for every number of pushes): after `k` calls of `PushBack` on a
default-constructed vector the capacity is never less than `k`; it is 0 for `k = 0` and for
`k ≥ 2` it is the smallest member of the growth sequence 0, 1, 2, 4, 8, ... that is `≥ k`;
but for `k = 1` it is 2, although the member 1 of the growth sequence is already `≥ 1`. -/
theorem C16_capacity_after_pushes (vs : List α) :
    ∃ w, pushAll (SimpleVector.empty : SimpleVector α) vs = .ok w ∧
      vs.length ≤ GetCapacity w ∧
      (vs.length ≠ 1 → (∃ n, GetCapacity w = growthSequence n) ∧
        ∀ n, vs.length ≤ growthSequence n → GetCapacity w ≤ growthSequence n) ∧
      (vs.length = 1 → GetCapacity w = 2 ∧ vs.length ≤ growthSequence 1 ∧
        growthSequence 1 < GetCapacity w) := by
  obtain ⟨w, hw, hle, h0, h1, h2⟩ := pushAll_empty_capacity vs
  refine ⟨w, hw, hle, ?_, ?_⟩
  · intro hne
    by_cases hz : vs.length = 0
    · have hc := h0 hz
      exact ⟨⟨0, by simp [GetCapacity, hc, growthSequence]⟩,
        fun n _ => by simp [GetCapacity, hc]⟩
    · obtain ⟨n, hn, hc, hmin⟩ := h2 (by omega)
      refine ⟨⟨n + 1, by simp [GetCapacity, hc, growthSequence]⟩, ?_⟩
      · intro j hj
        cases j with
        | zero => simp only [growthSequence] at hj; omega
        | succ j =>
          simp only [growthSequence] at hj ⊢
          simp only [GetCapacity, hc]
          have hlt : 2 ^ (n - 1) < 2 ^ j := by omega
          have hnj : n - 1 < j := (Nat.pow_lt_pow_iff_right (by decide)).mp hlt
          exact Nat.pow_le_pow_right (by decide) (by omega)
  · intro h
    have hc := h1 h
    refine ⟨hc, by simp [growthSequence, h], by simp [growthSequence, GetCapacity, hc]⟩

/-! ## The reservation constructor -/

/-- The reservation constructor: an empty vector over `n` slots, all holding `Type{}`. -/
theorem reserved_eq [Inhabited α] (n : Nat) :
    (SimpleVector.reserved n : Except Fault (SimpleVector α))
      = .ok ⟨List.replicate n (some default), 0, n⟩ := by
  cases n with
  | zero => rfl
  | succ k =>
    have hgt : k + 1 > (SimpleVector.empty : SimpleVector α).capacity_ := Nat.succ_pos k
    simp only [SimpleVector.reserved, Reserve, hgt, if_true, filled_eq, bind, Except.bind]
    rfl

/-- A run of `PushBack` calls that fits into the spare capacity never reallocates. -/
theorem pushAll_within_capacity (xs : List α) :
    ∀ v : SimpleVector α, Inv v → v.size_ + xs.length ≤ v.capacity_ →
      ∃ w, pushAll v xs = .ok w ∧ Inv w ∧ w.capacity_ = v.capacity_ ∧
        w.size_ = v.size_ + xs.length ∧ live w = live v ++ xs.map some := by
  induction xs with
  | nil => intro v hv _; exact ⟨v, rfl, hv, rfl, by simp, by simp⟩
  | cons x xs ih =>
    intro v hv hfit
    simp only [List.length_cons] at hfit
    obtain ⟨u, hu, hui, hus, hul, huc⟩ := PushBack_spec v x hv
    rw [if_pos (by omega)] at huc
    obtain ⟨w, hw, hwi, hwc, hws, hwl⟩ := ih u hui (by omega)
    refine ⟨w, ?_, hwi, by rw [hwc, huc], ?_, ?_⟩
    · simp only [pushAll, hu, bind, Except.bind]; exact hw
    · rw [hws, hus]; simp; omega
    · rw [hwl, hul]; simp

/-- C17: constructing from the reservation hint `Reserve(n)` gives size 0 and capacity `n`,
and after any number `j ≤ n` of subsequent `PushBack` calls the capacity is still `n` and
the size is `j` (the live elements being the pushed values). -/
theorem C17_reserve_then_push [Inhabited α] (n : Nat) (vs : List α) (hfit : vs.length ≤ n) :
    ∃ v0, (SimpleVector.reserved n : Except Fault (SimpleVector α)) = .ok v0 ∧
      GetSize v0 = 0 ∧ GetCapacity v0 = n ∧
      ∃ w, pushAll v0 vs = .ok w ∧ GetSize w = vs.length ∧ GetCapacity w = n ∧
        live w = vs.map some := by
  have hinv : Inv (⟨List.replicate n (some default), 0, n⟩ : SimpleVector α) := by
    simp [Inv]
  obtain ⟨w, hw, _, hwc, hws, hwl⟩ := pushAll_within_capacity vs _ hinv
    (by simp only []; omega)
  refine ⟨_, reserved_eq n, rfl, rfl, w, hw, ?_, hwc, ?_⟩
  · simpa [GetSize] using hws
  · simpa [live] using hwl

/-- C17 at `n = 10` with the ten pushes `1, ..., 10`. -/
theorem C17_reserve_then_push_witness :
    [1, 2, 3, 4, 5, 6, 7, 8, 9, (10 : Int)].length ≤ 10 ∧
    ∃ v0, (SimpleVector.reserved 10 : Except Fault (SimpleVector Int)) = .ok v0 ∧
      GetSize v0 = 0 ∧ GetCapacity v0 = 10 ∧
      ∃ w, pushAll v0 [1, 2, 3, 4, 5, 6, 7, 8, 9, 10] = .ok w ∧ GetSize w = 10 ∧
        GetCapacity w = 10 ∧
        live w = [some 1, some 2, some 3, some 4, some 5, some 6, some 7, some 8, some 9,
          some 10] :=
  ⟨by decide, C17_reserve_then_push 10 [1, 2, 3, 4, 5, 6, 7, 8, 9, 10] (by decide)⟩

/-! ## Resize to a smaller or equal size -/

/-- C19: for `newSize ≤ size`, `Resize(newSize)` sets the size to `newSize` and leaves the
capacity, the buffer and hence the first `newSize` elements unchanged; `Resize(GetSize())`
returns the vector as it was. -/
theorem C19_resize_shrink [Inhabited α] (v : SimpleVector α) (newsize : Nat)
    (hle : newsize ≤ GetSize v) :
    (∃ w, Resize v newsize = .ok w ∧ GetSize w = newsize ∧ GetCapacity w = GetCapacity v ∧
      w.items_ = v.items_ ∧ live w = (live v).take newsize) ∧
    Resize v (GetSize v) = .ok v := by
  have h1 : v.size_ ≥ newsize := hle
  constructor
  · refine ⟨{ v with size_ := newsize }, ?_, rfl, rfl, rfl, ?_⟩
    · simp only [Resize, h1, if_true]; rfl
    · simp only [live, List.take_take, Nat.min_eq_left h1]
  · have h2 : v.size_ ≥ GetSize v := Nat.le_refl _
    simp only [Resize, h2, if_true]
    rfl

/-- C19 at the vector `[1, 2, 3]` of capacity 4, `Resize(2)` and `Resize(3)`. -/
theorem C19_resize_shrink_witness :
    (2 ≤ GetSize (⟨[some 1, some 2, some 3, none], 3, 4⟩ : SimpleVector Int)) ∧
    Resize (⟨[some 1, some 2, some 3, none], 3, 4⟩ : SimpleVector Int) 2
      = .ok ⟨[some 1, some 2, some 3, none], 2, 4⟩ ∧
    Resize (⟨[some 1, some 2, some 3, none], 3, 4⟩ : SimpleVector Int) 3
      = .ok ⟨[some 1, some 2, some 3, none], 3, 4⟩ :=
  ⟨by decide, rfl,
    (C19_resize_shrink ⟨[some 1, some 2, some 3, none], 3, 4⟩ 2 (by decide)).2⟩

/-! ## The copying overload of Insert -/

/-- C20 (the code on every input): the overload `Insert(ConstIterator, const Type&)` calls
itself with the same arguments, so for no depth of calls has it returned; it produces
neither an array nor a position, whatever the vector, the position and the value. -/
theorem C20_insert_copy_never_returns (v : SimpleVector α) (pos : Nat) (value : α)
    (fuel : Nat) : InsertCopy v pos value fuel = none := by
  induction fuel with
  | zero => rfl
  | succ k ih => exact ih

/-! ## The comparison operators -/

theorem live_length (v : SimpleVector α) (hv : Inv v) : (live v).length = v.size_ := by
  simp only [live, List.length_take]
  have := hv.1
  have := hv.2
  omega

/-- Equality of the live sequences, index by index. -/
theorem live_eq_iff (a b : SimpleVector α) (ha : Inv a) (hb : Inv b) :
    live a = live b ↔
      (GetSize a = GetSize b ∧ ∀ i : Nat, i < GetSize a → a.items_[i]? = b.items_[i]?) := by
  constructor
  · intro h
    have hs : a.size_ = b.size_ := by
      rw [← live_length a ha, ← live_length b hb, h]
    refine ⟨hs, ?_⟩
    intro i hi
    simp only [GetSize] at hi
    have h1 : (live a)[i]? = a.items_[i]? := List.getElem?_take_of_lt hi
    have h2 : (live b)[i]? = b.items_[i]? := List.getElem?_take_of_lt (by omega)
    rw [← h1, ← h2, h]
  · rintro ⟨hs, hel⟩
    simp only [GetSize] at hs hel
    apply List.ext_getElem?
    intro i
    by_cases hi : i < a.size_
    · have h1 : (live a)[i]? = a.items_[i]? := List.getElem?_take_of_lt hi
      have h2 : (live b)[i]? = b.items_[i]? := List.getElem?_take_of_lt (by omega)
      rw [h1, h2, hel i hi]
    · rw [List.getElem?_eq_none_iff.mpr (by rw [live_length a ha]; omega),
        List.getElem?_eq_none_iff.mpr (by rw [live_length b hb]; omega)]

theorem StrictPrefix_cons (x y : α) (xs ys : List α) :
    StrictPrefix (x :: xs) (y :: ys) ↔ x = y ∧ StrictPrefix xs ys := by
  constructor
  · rintro ⟨hlen, hpre⟩
    have h0 := hpre 0 (by simp)
    simp only [List.getElem?_cons_zero, Option.some.injEq] at h0
    refine ⟨h0, by simpa using hlen, ?_⟩
    intro j hj
    have := hpre (j + 1) (by simpa using hj)
    simpa using this
  · rintro ⟨rfl, hlen, hpre⟩
    refine ⟨by simpa using hlen, ?_⟩
    intro j hj
    cases j with
    | zero => simp
    | succ j => simpa using hpre j (by simpa using hj)

theorem map_some_eq_iff (xs ys : List α) : xs.map some = ys.map some ↔ xs = ys :=
  (List.map_injective_iff.mpr (Option.some_injective α)).eq_iff

section ComparisonLemmas

variable [LinearOrder α]

theorem FirstDiffLess_cons (x y : α) (xs ys : List α) :
    FirstDiffLess (x :: xs) (y :: ys) ↔ x < y ∨ (x = y ∧ FirstDiffLess xs ys) := by
  constructor
  · rintro ⟨k, u, w, hu, hw, hlt, hpre⟩
    cases k with
    | zero =>
      simp only [List.getElem?_cons_zero, Option.some.injEq] at hu hw
      subst hu; subst hw
      exact Or.inl hlt
    | succ k =>
      right
      have h0 := hpre 0 (Nat.succ_pos k)
      simp only [List.getElem?_cons_zero, Option.some.injEq] at h0
      refine ⟨h0, k, u, w, by simpa using hu, by simpa using hw, hlt, ?_⟩
      intro j hj
      have := hpre (j + 1) (by omega)
      simpa using this
  · rintro (hlt | ⟨rfl, k, u, w, hu, hw, hlt, hpre⟩)
    · exact ⟨0, x, y, by simp, by simp, hlt, fun j hj => absurd hj (Nat.not_lt_zero j)⟩
    · refine ⟨k + 1, u, w, by simpa using hu, by simpa using hw, hlt, ?_⟩
      intro j hj
      cases j with
      | zero => simp
      | succ j => simpa using hpre j (by omega)

/-- The comparison loop on two ranges of written slots returns, and returns true exactly
when one of the two clauses of the lexicographic order holds. -/
theorem lexicographical_compare_spec (xs : List α) :
    ∀ ys : List α, ∃ r, lexicographical_compare (xs.map some) (ys.map some) = some r ∧
      (r = true ↔ FirstDiffLess xs ys ∨ StrictPrefix xs ys) := by
  induction xs with
  | nil =>
    intro ys
    cases ys with
    | nil =>
      refine ⟨false, rfl, ?_⟩
      simp [FirstDiffLess, StrictPrefix]
    | cons y ys =>
      refine ⟨true, rfl, ?_⟩
      simp [StrictPrefix]
  | cons x xs ih =>
    intro ys
    cases ys with
    | nil =>
      refine ⟨false, rfl, ?_⟩
      simp [FirstDiffLess, StrictPrefix]
    | cons y ys =>
      simp only [List.map_cons, lexicographical_compare]
      rw [FirstDiffLess_cons, StrictPrefix_cons]
      by_cases h1 : x < y
      · refine ⟨true, by simp [h1], ?_⟩
        simp [h1]
      · by_cases h2 : y < x
        · refine ⟨false, by simp [h1, h2], ?_⟩
          have hne : ¬ x = y := fun h => by subst h; exact h1 h2
          simp [h1, hne]
        · have heq : x = y := le_antisymm (not_lt.mp h2) (not_lt.mp h1)
          obtain ⟨r, hr, hiff⟩ := ih ys
          refine ⟨r, by simp [h1, h2, hr], ?_⟩
          simp [h1, heq, hiff]

/-- Neither range is less than the other exactly when the two value sequences are equal. -/
theorem lexicographical_compare_both_false (xs : List α) :
    ∀ ys : List α,
      (lexicographical_compare (xs.map some) (ys.map some) = some false ∧
        lexicographical_compare (ys.map some) (xs.map some) = some false) ↔ xs = ys := by
  induction xs with
  | nil =>
    intro ys
    cases ys with
    | nil => simp [lexicographical_compare]
    | cons y ys => simp [lexicographical_compare]
  | cons x xs ih =>
    intro ys
    cases ys with
    | nil => simp [lexicographical_compare]
    | cons y ys =>
      simp only [List.map_cons, lexicographical_compare]
      by_cases h1 : x < y
      · have hne : ¬ x = y := fun h => by subst h; exact lt_irrefl _ h1
        simp [h1, hne]
      · by_cases h2 : y < x
        · have hne : ¬ x = y := fun h => by subst h; exact lt_irrefl _ h2
          simp [h1, h2, hne]
        · have heq : x = y := le_antisymm (not_lt.mp h2) (not_lt.mp h1)
          simp [h1, h2, heq, ih ys]

/-- The operators `==` and `!=` on two vectors whose live slots hold the values `xs`, `ys`. -/
theorem operatorEq_spec (a b : SimpleVector α) (xs ys : List α)
    (ha : live a = xs.map some) (hb : live b = ys.map some) :
    ∃ r, operatorEq a b = some r ∧ operatorNe a b = some (!r) ∧ (r = true ↔ xs = ys) := by
  obtain ⟨r1, h1, _⟩ := lexicographical_compare_spec xs ys
  obtain ⟨r2, h2, _⟩ := lexicographical_compare_spec ys xs
  have hboth := lexicographical_compare_both_false xs ys
  rw [h1, h2] at hboth
  have hne : operatorNe a b = some (r1 || r2) := by
    simp only [operatorNe, operatorGt, operatorLt, ha, hb, h1, h2]
    cases r1 <;> rfl
  refine ⟨!(r1 || r2), by simp only [operatorEq, hne]; rfl, by simp [hne], ?_⟩
  rw [← hboth]
  cases r1 <;> cases r2 <;> simp

/-- C13: for two vectors over a linearly ordered element type whose live slots hold values,
`operator==` as implemented returns, and returns true exactly when the vectors have the same
size and equal elements at every index in `[0, size)`; nothing but the live slots enters the
condition; `operator!=` returns the negation. -/
theorem C13_equality (a b : SimpleVector α) (xs ys : List α) (hia : Inv a) (hib : Inv b)
    (ha : live a = xs.map some) (hb : live b = ys.map some) :
    ∃ r, operatorEq a b = some r ∧ operatorNe a b = some (!r) ∧
      (r = true ↔
        (GetSize a = GetSize b ∧ ∀ i : Nat, i < GetSize a → a.items_[i]? = b.items_[i]?)) := by
  obtain ⟨r, he, hn, hiff⟩ := operatorEq_spec a b xs ys ha hb
  refine ⟨r, he, hn, ?_⟩
  rw [hiff, ← live_eq_iff a b hia hib, ha, hb, map_some_eq_iff]

/-- C13 at `{1, 2, 3} == {1, 2, 3}` with different capacities and dead slots, and at
`{1, 2, 3} == {1, 2, 4}`. -/
theorem C13_equality_witness :
    (Inv (⟨[some 1, some 2, some 3, none], 3, 4⟩ : SimpleVector Int) ∧
      Inv (⟨[some 1, some 2, some 3, some 7, some 8], 3, 5⟩ : SimpleVector Int)) ∧
    operatorEq (⟨[some 1, some 2, some 3, none], 3, 4⟩ : SimpleVector Int)
      ⟨[some 1, some 2, some 3, some 7, some 8], 3, 5⟩ = some true ∧
    operatorEq (⟨[some 1, some 2, some 3], 3, 3⟩ : SimpleVector Int)
      ⟨[some 1, some 2, some 4], 3, 3⟩ = some false ∧
    ∃ r, operatorEq (⟨[some 1, some 2, some 3, none], 3, 4⟩ : SimpleVector Int)
        ⟨[some 1, some 2, some 3, some 7, some 8], 3, 5⟩ = some r ∧
      operatorNe (⟨[some 1, some 2, some 3, none], 3, 4⟩ : SimpleVector Int)
        ⟨[some 1, some 2, some 3, some 7, some 8], 3, 5⟩ = some (!r) ∧
      (r = true ↔
        (GetSize (⟨[some 1, some 2, some 3, none], 3, 4⟩ : SimpleVector Int)
            = GetSize (⟨[some 1, some 2, some 3, some 7, some 8], 3, 5⟩ : SimpleVector Int) ∧
          ∀ i : Nat, i < GetSize (⟨[some 1, some 2, some 3, none], 3, 4⟩ : SimpleVector Int) →
            [some 1, some 2, some 3, none][i]?
              = [some 1, some 2, some 3, some 7, some (8 : Int)][i]?)) :=
  ⟨⟨by decide, by decide⟩, by decide, by decide,
    C13_equality ⟨[some 1, some 2, some 3, none], 3, 4⟩
      ⟨[some 1, some 2, some 3, some 7, some 8], 3, 5⟩ [1, 2, 3] [1, 2, 3]
      (by decide) (by decide) rfl rfl⟩

/-- C14: for two vectors over a linearly ordered element type whose live slots hold the
values `xs` and `ys`, `a < b` returns, and returns true exactly when there is a first index
at which the live elements differ and there `a`'s is the smaller, or `a`'s live elements are
a strict prefix of `b`'s; and `a <= b`, `a > b`, `a >= b` return `!(b < a)`, `b < a`,
`!(a < b)`. -/
theorem C14_ordering (a b : SimpleVector α) (xs ys : List α)
    (ha : live a = xs.map some) (hb : live b = ys.map some) :
    ∃ r r2, operatorLt a b = some r ∧ operatorLt b a = some r2 ∧
      (r = true ↔ FirstDiffLess xs ys ∨ StrictPrefix xs ys) ∧
      operatorLe a b = some (!r2) ∧ operatorGt a b = some r2 ∧
      operatorGe a b = some (!r) := by
  obtain ⟨r, h1, hiff⟩ := lexicographical_compare_spec xs ys
  obtain ⟨r2, h2, _⟩ := lexicographical_compare_spec ys xs
  have hlt : operatorLt a b = some r := by simp only [operatorLt, ha, hb, h1]
  have hgt : operatorLt b a = some r2 := by simp only [operatorLt, ha, hb, h2]
  refine ⟨r, r2, hlt, hgt, hiff, ?_, ?_, ?_⟩
  · simp only [operatorLe, hgt]; rfl
  · simp only [operatorGt, hgt]
  · simp only [operatorGe, hlt]; rfl

/-- C14 at `{1, 2, 3} < {1, 2, 4}` and `{1, 2} < {1, 2, 3}`. -/
theorem C14_ordering_witness :
    operatorLt (⟨[some 1, some 2, some 3], 3, 3⟩ : SimpleVector Int)
      ⟨[some 1, some 2, some 4], 3, 3⟩ = some true ∧
    operatorLt (⟨[some 1, some 2], 2, 2⟩ : SimpleVector Int)
      ⟨[some 1, some 2, some 3], 3, 3⟩ = some true ∧
    ∃ r r2, operatorLt (⟨[some 1, some 2], 2, 2⟩ : SimpleVector Int)
        ⟨[some 1, some 2, some 3], 3, 3⟩ = some r ∧
      operatorLt (⟨[some 1, some 2, some 3], 3, 3⟩ : SimpleVector Int)
        ⟨[some 1, some 2], 2, 2⟩ = some r2 ∧
      (r = true ↔ FirstDiffLess [1, 2] [1, 2, (3 : Int)] ∨ StrictPrefix [1, 2] [1, 2, (3 : Int)]) ∧
      operatorLe (⟨[some 1, some 2], 2, 2⟩ : SimpleVector Int)
        ⟨[some 1, some 2, some 3], 3, 3⟩ = some (!r2) ∧
      operatorGt (⟨[some 1, some 2], 2, 2⟩ : SimpleVector Int)
        ⟨[some 1, some 2, some 3], 3, 3⟩ = some r2 ∧
      operatorGe (⟨[some 1, some 2], 2, 2⟩ : SimpleVector Int)
        ⟨[some 1, some 2, some 3], 3, 3⟩ = some (!r) :=
  ⟨by decide, by decide,
    C14_ordering ⟨[some 1, some 2], 2, 2⟩ ⟨[some 1, some 2, some 3], 3, 3⟩ [1, 2] [1, 2, 3]
      rfl rfl⟩

end ComparisonLemmas

/-! ## Copy construction and copy assignment -/

/-- The size constructor `SimpleVector(size)`: `size` slots, all holding `Type{}`. -/
theorem ofSize_eq [Inhabited α] (size : Nat) :
    (SimpleVector.ofSize size : Except Fault (SimpleVector α))
      = .ok ⟨List.replicate size (some default), size, size⟩ := by
  simp only [SimpleVector.ofSize, filled_eq, bind, Except.bind]
  rfl

/-- The temporary that the copy constructor and the copy assignment build from `other`:
a buffer of exactly `other.size_` slots holding the live elements of `other`. -/
theorem copy_tmp [Inhabited α] (other : SimpleVector α) (hv : Inv other) :
    copyRange other.items_ 0 other.size_ (List.replicate other.size_ (some (default : α))) 0
      = .ok (live other) := by
  have h := copyRange_ok other.items_ (List.replicate other.size_ (some (default : α))) 0
    other.size_ 0 (by have := hv.1; have := hv.2; omega) (by simp)
  rw [h]
  simp [live]

theorem copyConstruct_eq [Inhabited α] (other : SimpleVector α) (hv : Inv other) :
    copyConstruct other = .ok (⟨live other, other.size_, other.size_⟩, other) := by
  simp only [copyConstruct, GetSize, ofSize_eq, bind, Except.bind, copy_tmp other hv]
  rfl

theorem copyAssign_eq [Inhabited α] (this rhs : SimpleVector α) (hv : Inv rhs) :
    copyAssign this rhs false = .ok (⟨live rhs, rhs.size_, rhs.size_⟩, rhs) := by
  simp only [copyAssign, GetSize, ofSize_eq, bind, Except.bind, copy_tmp rhs hv]
  rfl

/-- C12: copy-constructing `b` from `a`, and likewise copy-assigning `b = a` over any prior
`b0`, gives `b` with size `a.size`, capacity `a.size` and `a`'s live elements in order, so
that `b == a` returns true; `a` after the call is `a` as it was; and a later `PushBack` on
`b` returns a new state of `b` alone, whose live elements differ from those of `a`. -/
theorem C12_copy [Inhabited α] [LinearOrder α] (a b0 : SimpleVector α) (xs : List α)
    (item : α) (hv : Inv a) (ha : live a = xs.map some) :
    ∃ b, copyConstruct a = .ok (b, a) ∧ copyAssign b0 a false = .ok (b, a) ∧
      GetSize b = GetSize a ∧ GetCapacity b = GetSize a ∧ live b = live a ∧
      operatorEq b a = some true ∧
      ∃ b2, PushBack b item = .ok b2 ∧ live b2 = live a ++ [some item] ∧
        live b2 ≠ live a := by
  have hlen := live_length a hv
  have hb : live (⟨live a, a.size_, a.size_⟩ : SimpleVector α) = live a := by
    simp only [live, List.take_take, Nat.min_self]
  have hbi : Inv (⟨live a, a.size_, a.size_⟩ : SimpleVector α) :=
    ⟨hlen.symm, Nat.le_refl _⟩
  obtain ⟨r, he, _, hiff⟩ := operatorEq_spec (⟨live a, a.size_, a.size_⟩ : SimpleVector α) a
    xs xs (by rw [hb, ha]) ha
  have hr : r = true := hiff.mpr rfl
  subst hr
  obtain ⟨b2, hb2, _, _, hl2, _⟩ := PushBack_spec (⟨live a, a.size_, a.size_⟩ : SimpleVector α)
    item hbi
  refine ⟨_, copyConstruct_eq a hv, copyAssign_eq b0 a hv, rfl, rfl, hb, he, b2, hb2,
    by rw [hl2, hb], ?_⟩
  rw [hl2, hb]
  intro hc
  have := congrArg List.length hc
  simp at this

/-- C12 at the vector `[1, 2, 3]` of capacity 4, assigned over `{5}`, then `PushBack(9)`. -/
theorem C12_copy_witness :
    Inv (⟨[some 1, some 2, some 3, none], 3, 4⟩ : SimpleVector Int) ∧
    ∃ b, copyConstruct (⟨[some 1, some 2, some 3, none], 3, 4⟩ : SimpleVector Int)
        = .ok (b, ⟨[some 1, some 2, some 3, none], 3, 4⟩) ∧
      copyAssign (⟨[some 5], 1, 1⟩ : SimpleVector Int) ⟨[some 1, some 2, some 3, none], 3, 4⟩
        false = .ok (b, ⟨[some 1, some 2, some 3, none], 3, 4⟩) ∧
      GetSize b = 3 ∧ GetCapacity b = 3 ∧ live b = [some 1, some 2, some 3] ∧
      operatorEq b ⟨[some 1, some 2, some 3, none], 3, 4⟩ = some true ∧
      ∃ b2, PushBack b 9 = .ok b2 ∧ live b2 = [some 1, some 2, some 3] ++ [some 9] ∧
        live b2 ≠ [some 1, some 2, some 3] :=
  ⟨by decide,
    C12_copy ⟨[some 1, some 2, some 3, none], 3, 4⟩ ⟨[some 5], 1, 1⟩ [1, 2, 3] 9
      (by decide) rfl⟩

end SimpleVec
